import Mathlib

/-!
# Verification of the splay-tree memo store (`algo_task_2.py`)

This file gives a shallow embedding of the splay tree and its Fibonacci
memoizing driver from `src/algo_task_2.py` and proves the specification
claims about them.

The Python code mutates a pointer-linked tree, but every link is exclusively
owned (no sharing, no parent pointers, the tree is rebuilt top-down per
operation), so the mutation is exactly functional update: we model `Node`
and the `None` child as a purely functional binary tree, keys and values as
`Int` (Python integers are arbitrary precision), and each method as a
function returning the new tree.
-/

namespace SplayTree

/-- The `Node` dataclass together with the `None` reference:
`nil` is Python `None`, `node key value left right` is `Node(key, value, left, right)`. -/
inductive Tree : Type where
  | nil : Tree
  | node (key value : Int) (left right : Tree) : Tree
deriving DecidableEq, Repr

namespace Tree

/-- Python `x.left`, reading `None` as `nil`. -/
def left : Tree → Tree
  | .nil => .nil
  | .node _ _ l _ => l

/-- Python `x.right`, reading `None` as `nil`. -/
def right : Tree → Tree
  | .nil => .nil
  | .node _ _ _ r => r

/-- Python `x is None`. -/
def isNil : Tree → Bool
  | .nil => true
  | .node _ _ _ _ => false

/-- The key of the root node, if any (`self.root.key`). -/
def rootKey : Tree → Option Int
  | .nil => none
  | .node k _ _ _ => some k

/-- The value stored at the root node, if any (`self.root.value`). -/
def rootValue : Tree → Option Int
  | .nil => none
  | .node _ v _ _ => some v

/-- Number of nodes in the tree. -/
def size : Tree → Nat
  | .nil => 0
  | .node _ _ l r => size l + size r + 1

/-- In-order traversal of the `(key, value)` pairs stored in the tree.
Two trees hold the same nodes with the same contents iff they have the
same in-order listing, so this is the observable state of the store. -/
def inorder : Tree → List (Int × Int)
  | .nil => []
  | .node k v l r => inorder l ++ (k, v) :: inorder r

end Tree

/-- The keys stored in the tree, in in-order. -/
def treeKeys (t : Tree) : List Int := (Tree.inorder t).map Prod.fst

/-- Model of `SplayTree._rotate_right(x)`: `y = x.left; x.left = y.right; y.right = x; return y`.
The Python code requires `x.left` to be non-null (it would crash otherwise);
every call site guarantees this, so the catch-all case is never exercised. -/
def rotateRight : Tree → Tree
  | .node k v (.node lk lv ll lr) r => .node lk lv ll (.node k v lr r)
  | t => t

/-- Model of `SplayTree._rotate_left(x)`: `y = x.right; x.right = y.left; y.left = x; return y`.
Same non-null requirement on `x.right` as `rotateRight`. -/
def rotateLeft : Tree → Tree
  | .node k v l (.node rk rv rl rr) => .node rk rv (.node k v l rl) rr
  | t => t

/-- Model of `SplayTree._splay(root, key)`, line for line.  The `let root := ...`
binds the value of the Python variable `root` after the zig-zig/zig-zag
branch (which skips when `key == root.left.key`), and the final
`if ... isNil` is Python's
`return root if root.left is None else self._rotate_right(root)`. -/
def splay (t : Tree) (key : Int) : Tree :=
  match t with
  | .nil => .nil
  | .node k v l r =>
    if key = k then .node k v l r
    else if key < k then
      match l with
      | .nil => .node k v l r
      | .node lk lv ll lr =>
        let root :=
          if key < lk then
            rotateRight (.node k v (.node lk lv (splay ll key) lr) r)
          else if lk < key then
            let lr' := splay lr key
            if lr'.isNil then Tree.node k v (.node lk lv ll lr') r
            else Tree.node k v (rotateLeft (.node lk lv ll lr')) r
          else Tree.node k v (.node lk lv ll lr) r
        if root.left.isNil then root else rotateRight root
    else
      match r with
      | .nil => .node k v l r
      | .node rk rv rl rr =>
        let root :=
          if rk < key then
            rotateLeft (.node k v l (.node rk rv rl (splay rr key)))
          else if key < rk then
            let rl' := splay rl key
            if rl'.isNil then Tree.node k v l (.node rk rv rl' rr)
            else Tree.node k v l (rotateRight (.node rk rv rl' rr))
          else Tree.node k v l (.node rk rv rl rr)
        if root.right.isNil then root else rotateLeft root

/-- Model of `SplayTree.search(key)`: splays, then returns the hit value or the miss
indicator (`None`), together with the new tree (`self.root` after the call). -/
def search (t : Tree) (key : Int) : Option Int × Tree :=
  match splay t key with
  | .nil => (none, .nil)
  | .node k v l r =>
    if k = key then (some v, .node k v l r) else (none, .node k v l r)

/-- Model of `SplayTree.insert(key, value)`, returning the new tree.
Python first handles `self.root is None` and otherwise splays; since
`splay nil key = nil`, matching on the splayed tree folds both paths into
one: the `nil` branch is exactly the empty-tree branch of the source. -/
def insert (t : Tree) (key value : Int) : Tree :=
  match splay t key with
  | .nil => .node key value .nil .nil
  | .node k v l r =>
    if k = key then .node k value l r
    else if key < k then .node key value l (.node k v .nil r)
    else .node key value (.node k v l .nil) r

/-- The binary-search-tree invariant: at every node, all keys of the left
subtree are strictly smaller and all keys of the right subtree strictly
greater than the node's key. -/
def BST : Tree → Prop
  | .nil => True
  | .node k _ l r =>
      (∀ x ∈ treeKeys l, x < k) ∧ (∀ x ∈ treeKeys r, k < x) ∧ BST l ∧ BST r

instance BST.dec : (t : Tree) → Decidable (BST t)
  | .nil => .isTrue trivial
  | .node k _ l r =>
    haveI := BST.dec l
    haveI := BST.dec r
    inferInstanceAs (Decidable ((∀ x ∈ treeKeys l, x < k) ∧
      (∀ x ∈ treeKeys r, k < x) ∧ BST l ∧ BST r))



/-- One `insert`/`search` call, as issued by a client. -/
inductive Op : Type where
  | ins (key value : Int) : Op
  | find (key : Int) : Op

/-- Apply one call to the tree held in `self.root` (the `search` result value
is discarded; only the state matters here). -/
def applyOp (t : Tree) : Op → Tree
  | .ins k v => insert t k v
  | .find k => (search t k).2

/-- Run a sequence of calls starting from the freshly constructed empty tree
(`SplayTree.__init__`). -/
def runOps (ops : List Op) : Tree := ops.foldl applyOp Tree.nil

/-- The Fibonacci recurrence `F(0)=0, F(1)=1, F(k)=F(k-1)+F(k-2)`. -/
def fib : Nat → Nat
  | 0 => 0
  | 1 => 1
  | n + 2 => fib (n + 1) + fib n

/-- Independent iterative reference computation:
`a, b = 0, 1` then repeatedly `a, b = b, a + b`; the pair after `n` steps
is `(F(n), F(n+1))`. -/
def fibIterAux : Nat → Nat × Nat
  | 0 => (0, 1)
  | n + 1 => ((fibIterAux n).2, (fibIterAux n).1 + (fibIterAux n).2)

/-- The iterative reference value for `F(n)`. -/
def fibIter (n : Nat) : Nat := (fibIterAux n).1

/-- One iteration of the fill loop of `fibonacci_splay` at index `k`:
`if tree.search(k) is None: ...insert...`.  A miss on `k` with `k >= 2`
computes the value from `search(k-1)` and `search(k-2)`, substituting 0
for a missing operand. -/
def fibStep (t : Tree) (k : Nat) : Tree :=
  match search t (k : Int) with
  | (some _, t1) => t1
  | (none, t1) =>
    if k < 2 then insert t1 (k : Int) (k : Int)
    else
      match search t1 ((k : Int) - 1) with
      | (a, t2) =>
        match search t2 ((k : Int) - 2) with
        | (b, t3) => insert t3 (k : Int) (a.getD 0 + b.getD 0)

/-- Model of `fibonacci_splay(n, tree)`: search first and return on a hit; otherwise
run the fill loop `for k in range(0, n + 1)` and return `tree.search(n)`.
The result is the returned value (`None` modelled as `none`) together with
the final tree state. -/
def fibonacci_splay (n : Nat) (t : Tree) : Option Int × Tree :=
  match search t (n : Int) with
  | (some hit, t1) => (some hit, t1)
  | (none, t1) => search ((List.range (n + 1)).foldl fibStep t1) (n : Int)

/-- Fuel-bounded splay: identical to `splay` except that each recursive
call consumes one unit of fuel, and exhausted fuel reports `none`.  This
mirrors the call stack of the recursive Python `_splay`. -/
def splayFuel : Nat → Tree → Int → Option Tree
  | 0, _, _ => none
  | fuel + 1, t, key =>
    match t with
    | .nil => some .nil
    | .node k v l r =>
      if key = k then some (.node k v l r)
      else if key < k then
        match l with
        | .nil => some (.node k v l r)
        | .node lk lv ll lr =>
          if key < lk then
            (splayFuel fuel ll key).map fun ll' =>
              let root := rotateRight (.node k v (.node lk lv ll' lr) r)
              if root.left.isNil then root else rotateRight root
          else if lk < key then
            (splayFuel fuel lr key).map fun lr' =>
              let root := if lr'.isNil then Tree.node k v (.node lk lv ll lr') r
                else Tree.node k v (rotateLeft (.node lk lv ll lr')) r
              if root.left.isNil then root else rotateRight root
          else
            let root := Tree.node k v (.node lk lv ll lr) r
            some (if root.left.isNil then root else rotateRight root)
      else
        match r with
        | .nil => some (.node k v l r)
        | .node rk rv rl rr =>
          if rk < key then
            (splayFuel fuel rr key).map fun rr' =>
              let root := rotateLeft (.node k v l (.node rk rv rl rr'))
              if root.right.isNil then root else rotateLeft root
          else if key < rk then
            (splayFuel fuel rl key).map fun rl' =>
              let root := if rl'.isNil then Tree.node k v l (.node rk rv rl' rr)
                else Tree.node k v l (rotateRight (.node rk rv rl' rr))
              if root.right.isNil then root else rotateLeft root
          else
            let root := Tree.node k v l (.node rk rv rl rr)
            some (if root.right.isNil then root else rotateLeft root)

/-- Every pair stored in the tree is a Fibonacci pair: the key is some
natural number `j` and the value is `F(j)`. -/
def goodPairs (t : Tree) : Prop :=
  ∀ p ∈ t.inorder, ∃ j : Nat, p.1 = (j : Int) ∧ p.2 = ((fib j : Nat) : Int)

/-- Every natural index below `m` is present as a key. -/
def hasBelow (t : Tree) (m : Nat) : Prop :=
  ∀ j : Nat, j < m → (j : Int) ∈ treeKeys t


@[simp] theorem rotateRight_inorder (t : Tree) : (rotateRight t).inorder = t.inorder := by
  cases t with
  | nil => rfl
  | node k v l r => cases l <;> simp [rotateRight, Tree.inorder]

@[simp] theorem rotateLeft_inorder (t : Tree) : (rotateLeft t).inorder = t.inorder := by
  cases t with
  | nil => rfl
  | node k v l r => cases r <;> simp [rotateLeft, Tree.inorder]

theorem append_cons_assoc {α : Type} {A B D Y : List α} (x : α)
    (h : A ++ x :: B = D) : A ++ x :: (B ++ Y) = D ++ Y := by
  rw [← h]; simp

theorem splay_inorder (t : Tree) (key : Int) : (splay t key).inorder = t.inorder := by
  induction t, key using splay.induct with
  | case1 key => rfl
  | case2 key v l r => rw [splay.eq_def]; simp
  | case3 key k v r hne hlt => rw [splay.eq_def]; simp only [if_neg hne, if_pos hlt]
  | case4 key k v r hne hlt lk lv ll lr root hroot ih1 ih2 =>
    clear hroot
    rw [splay.eq_def]
    simp only [if_neg hne, if_pos hlt]
    by_cases h1 : key < lk
    · simp only [if_pos h1]
      cases hs : splay ll key with
      | nil =>
        rw [hs] at ih1
        simp [rotateRight, Tree.inorder, Tree.left, Tree.isNil, ← ih1]
      | node a b c d =>
        rw [hs] at ih1
        simp only [Tree.inorder] at ih1
        simp [rotateRight, Tree.inorder, Tree.left, Tree.isNil]
        exact append_cons_assoc _ ih1
    · by_cases h2 : lk < key
      · simp only [if_neg h1, if_pos h2]
        cases hs : splay lr key with
        | nil =>
          rw [hs] at ih2
          simp [rotateLeft, rotateRight, Tree.inorder, Tree.left, Tree.isNil, ← ih2]
        | node a b c d =>
          rw [hs] at ih2
          simp only [Tree.inorder] at ih2
          simp [rotateLeft, rotateRight, Tree.inorder, Tree.left, Tree.isNil]
          exact append_cons_assoc _ ih2
      · simp only [if_neg h1, if_neg h2]
        simp [rotateRight, Tree.inorder, Tree.left, Tree.isNil]
  | case5 key k v r hne hlt lk lv ll lr root hroot ih1 ih2 =>
    clear hroot
    rw [splay.eq_def]
    simp only [if_neg hne, if_pos hlt]
    by_cases h1 : key < lk
    · simp only [if_pos h1]
      cases hs : splay ll key with
      | nil =>
        rw [hs] at ih1
        simp [rotateRight, Tree.inorder, Tree.left, Tree.isNil, ← ih1]
      | node a b c d =>
        rw [hs] at ih1
        simp only [Tree.inorder] at ih1
        simp [rotateRight, Tree.inorder, Tree.left, Tree.isNil]
        exact append_cons_assoc _ ih1
    · by_cases h2 : lk < key
      · simp only [if_neg h1, if_pos h2]
        cases hs : splay lr key with
        | nil =>
          rw [hs] at ih2
          simp [rotateLeft, rotateRight, Tree.inorder, Tree.left, Tree.isNil, ← ih2]
        | node a b c d =>
          rw [hs] at ih2
          simp only [Tree.inorder] at ih2
          simp [rotateLeft, rotateRight, Tree.inorder, Tree.left, Tree.isNil]
          exact append_cons_assoc _ ih2
      · simp only [if_neg h1, if_neg h2]
        simp [rotateRight, Tree.inorder, Tree.left, Tree.isNil]
  | case6 key k v l hne hge => rw [splay.eq_def]; simp only [if_neg hne, if_neg hge]
  | case7 key k v l hne hge rk rv rl rr root hroot ih1 ih2 =>
    clear hroot
    rw [splay.eq_def]
    simp only [if_neg hne, if_neg hge]
    by_cases h1 : rk < key
    · simp only [if_pos h1]
      cases hs : splay rr key with
      | nil =>
        rw [hs] at ih1
        simp [rotateLeft, Tree.inorder, Tree.right, Tree.isNil, ← ih1]
      | node a b c d =>
        rw [hs] at ih1
        simp only [Tree.inorder] at ih1
        simp [rotateLeft, Tree.inorder, Tree.right, Tree.isNil]
        exact ih1
    · by_cases h2 : key < rk
      · simp only [if_neg h1, if_pos h2]
        cases hs : splay rl key with
        | nil =>
          rw [hs] at ih2
          simp [rotateRight, rotateLeft, Tree.inorder, Tree.right, Tree.isNil, ← ih2]
        | node a b c d =>
          rw [hs] at ih2
          simp only [Tree.inorder] at ih2
          simp [rotateRight, rotateLeft, Tree.inorder, Tree.right, Tree.isNil]
          exact append_cons_assoc _ ih2
      · simp only [if_neg h1, if_neg h2]
        simp [rotateLeft, Tree.inorder, Tree.right, Tree.isNil]

  | case8 key k v l hne hge rk rv rl rr root hroot ih1 ih2 =>
    clear hroot
    rw [splay.eq_def]
    simp only [if_neg hne, if_neg hge]
    by_cases h1 : rk < key
    · simp only [if_pos h1]
      cases hs : splay rr key with
      | nil =>
        rw [hs] at ih1
        simp [rotateLeft, Tree.inorder, Tree.right, Tree.isNil, ← ih1]
      | node a b c d =>
        rw [hs] at ih1
        simp only [Tree.inorder] at ih1
        simp [rotateLeft, Tree.inorder, Tree.right, Tree.isNil]
        exact ih1
    · by_cases h2 : key < rk
      · simp only [if_neg h1, if_pos h2]
        cases hs : splay rl key with
        | nil =>
          rw [hs] at ih2
          simp [rotateRight, rotateLeft, Tree.inorder, Tree.right, Tree.isNil, ← ih2]
        | node a b c d =>
          rw [hs] at ih2
          simp only [Tree.inorder] at ih2
          simp [rotateRight, rotateLeft, Tree.inorder, Tree.right, Tree.isNil]
          exact append_cons_assoc _ ih2
      · simp only [if_neg h1, if_neg h2]
        simp [rotateLeft, Tree.inorder, Tree.right, Tree.isNil]



@[simp] theorem treeKeys_nil : treeKeys Tree.nil = [] := rfl

@[simp] theorem treeKeys_node (k v : Int) (l r : Tree) :
    treeKeys (Tree.node k v l r) = treeKeys l ++ k :: treeKeys r := by
  simp [treeKeys, Tree.inorder]

theorem splay_treeKeys (t : Tree) (key : Int) :
    treeKeys (splay t key) = treeKeys t := by
  simp [treeKeys, splay_inorder]

theorem bst_iff_pairwise : ∀ t : Tree, BST t ↔ (treeKeys t).Pairwise (· < ·)
  | .nil => by simp [BST]
  | .node k v l r => by
    have ihl := bst_iff_pairwise l
    have ihr := bst_iff_pairwise r
    simp only [BST, treeKeys_node, List.pairwise_append, List.pairwise_cons, ihl, ihr,
      List.mem_cons]
    constructor
    · rintro ⟨h1, h2, h3, h4⟩
      refine ⟨h3, ⟨fun b hb => h2 b hb, h4⟩, ?_⟩
      rintro a ha b (rfl | hb)
      · exact h1 a ha
      · exact lt_trans (h1 a ha) (h2 b hb)
    · rintro ⟨h3, ⟨h2, h4⟩, h5⟩
      exact ⟨fun a ha => h5 a ha k (Or.inl rfl), h2, h3, h4⟩

theorem splay_bst (t : Tree) (key : Int) (hb : BST t) : BST (splay t key) := by
  rw [bst_iff_pairwise, splay_treeKeys]
  exact (bst_iff_pairwise t).mp hb

theorem bst_nodup (t : Tree) (hb : BST t) : (treeKeys t).Nodup :=
  ((bst_iff_pairwise t).mp hb).imp ne_of_lt


theorem splay_root_of_mem (t : Tree) (key : Int) :
    BST t → key ∈ treeKeys t → ∃ v l r, splay t key = Tree.node key v l r := by
  induction t, key using splay.induct with
  | case1 key => intro _ hm; simp at hm
  | case2 key v l r => exact fun _ _ => ⟨v, l, r, by rw [splay.eq_def]; simp⟩
  | case3 key k v r hne hlt =>
    intro hb hm
    exfalso
    simp only [BST] at hb
    obtain ⟨h1, h2, hbl, hbr⟩ := hb
    simp only [treeKeys_node, treeKeys_nil, List.mem_append, List.mem_cons,
      List.not_mem_nil, List.nil_append] at hm
    rcases hm with rfl | hm
    · omega
    · have := h2 key hm; omega
  | case4 key k v r hne hlt lk lv ll lr root hroot ih1 ih2 =>
    clear hroot
    intro hb hm
    simp only [BST] at hb
    obtain ⟨h1, h2, ⟨h3, h4, hbll, hblr⟩, hbr⟩ := hb
    simp only [treeKeys_node, List.mem_append, List.mem_cons] at hm h1
    rw [splay.eq_def]
    simp only [if_neg hne, if_pos hlt]
    by_cases hA : key < lk
    · have hmll : key ∈ treeKeys ll := by
        rcases hm with (hm | rfl | hm) | rfl | hm
        · exact hm
        · omega
        · have := h4 key hm; omega
        · omega
        · have := h2 key hm; omega
      obtain ⟨v', l', r', hs⟩ := ih1 hbll hmll
      simp only [if_pos hA, hs, rotateRight, Tree.left, Tree.isNil]
      exact ⟨_, _, _, rfl⟩
    · by_cases hB : lk < key
      · have hmlr : key ∈ treeKeys lr := by
          rcases hm with (hm | rfl | hm) | rfl | hm
          · have := h3 key hm; omega
          · omega
          · exact hm
          · omega
          · have := h2 key hm; omega
        obtain ⟨v', l', r', hs⟩ := ih2 hblr hmlr
        simp only [if_neg hA, if_pos hB, hs, rotateLeft, rotateRight, Tree.left, Tree.isNil]
        exact ⟨_, _, _, rfl⟩
      · have hkey : lk = key := by omega
        subst hkey
        simp only [if_neg hA, if_neg hB, rotateRight, Tree.left, Tree.isNil]
        exact ⟨_, _, _, rfl⟩
  | case5 key k v r hne hlt lk lv ll lr root hroot ih1 ih2 =>
    clear hroot
    intro hb hm
    simp only [BST] at hb
    obtain ⟨h1, h2, ⟨h3, h4, hbll, hblr⟩, hbr⟩ := hb
    simp only [treeKeys_node, List.mem_append, List.mem_cons] at hm h1
    rw [splay.eq_def]
    simp only [if_neg hne, if_pos hlt]
    by_cases hA : key < lk
    · have hmll : key ∈ treeKeys ll := by
        rcases hm with (hm | rfl | hm) | rfl | hm
        · exact hm
        · omega
        · have := h4 key hm; omega
        · omega
        · have := h2 key hm; omega
      obtain ⟨v', l', r', hs⟩ := ih1 hbll hmll
      simp only [if_pos hA, hs, rotateRight, Tree.left, Tree.isNil]
      exact ⟨_, _, _, rfl⟩
    · by_cases hB : lk < key
      · have hmlr : key ∈ treeKeys lr := by
          rcases hm with (hm | rfl | hm) | rfl | hm
          · have := h3 key hm; omega
          · omega
          · exact hm
          · omega
          · have := h2 key hm; omega
        obtain ⟨v', l', r', hs⟩ := ih2 hblr hmlr
        simp only [if_neg hA, if_pos hB, hs, rotateLeft, rotateRight, Tree.left, Tree.isNil]
        exact ⟨_, _, _, rfl⟩
      · have hkey : lk = key := by omega
        subst hkey
        simp only [if_neg hA, if_neg hB, rotateRight, Tree.left, Tree.isNil]
        exact ⟨_, _, _, rfl⟩
  | case6 key k v l hne hge =>
    intro hb hm
    exfalso
    simp only [BST] at hb
    obtain ⟨h1, h2, hbl, hbr⟩ := hb
    simp only [treeKeys_node, treeKeys_nil, List.mem_append, List.mem_cons,
      List.not_mem_nil, or_false] at hm
    rcases hm with hm | rfl
    · have := h1 key hm; omega
    · omega
  | case7 key k v l hne hge rk rv rl rr root hroot ih1 ih2 =>
    clear hroot
    intro hb hm
    simp only [BST] at hb
    obtain ⟨h1, h2, hbl, ⟨h3, h4, hbrl, hbrr⟩⟩ := hb
    simp only [treeKeys_node, List.mem_append, List.mem_cons] at hm h2
    rw [splay.eq_def]
    simp only [if_neg hne, if_neg hge]
    by_cases hA : rk < key
    · have hmrr : key ∈ treeKeys rr := by
        rcases hm with hm | rfl | hm | rfl | hm
        · have := h1 key hm; omega
        · omega
        · have := h3 key hm; omega
        · omega
        · exact hm
      obtain ⟨v', l', r', hs⟩ := ih1 hbrr hmrr
      simp only [if_pos hA, hs, rotateLeft, Tree.right, Tree.isNil]
      exact ⟨_, _, _, rfl⟩
    · by_cases hB : key < rk
      · have hmrl : key ∈ treeKeys rl := by
          rcases hm with hm | rfl | hm | rfl | hm
          · have := h1 key hm; omega
          · omega
          · exact hm
          · omega
          · have := h4 key hm; omega
        obtain ⟨v', l', r', hs⟩ := ih2 hbrl hmrl
        simp only [if_neg hA, if_pos hB, hs, rotateRight, rotateLeft, Tree.right, Tree.isNil]
        exact ⟨_, _, _, rfl⟩
      · have hkey : rk = key := by omega
        subst hkey
        simp only [if_neg hA, if_neg hB, rotateLeft, Tree.right, Tree.isNil]
        exact ⟨_, _, _, rfl⟩
  | case8 key k v l hne hge rk rv rl rr root hroot ih1 ih2 =>
    clear hroot
    intro hb hm
    simp only [BST] at hb
    obtain ⟨h1, h2, hbl, ⟨h3, h4, hbrl, hbrr⟩⟩ := hb
    simp only [treeKeys_node, List.mem_append, List.mem_cons] at hm h2
    rw [splay.eq_def]
    simp only [if_neg hne, if_neg hge]
    by_cases hA : rk < key
    · have hmrr : key ∈ treeKeys rr := by
        rcases hm with hm | rfl | hm | rfl | hm
        · have := h1 key hm; omega
        · omega
        · have := h3 key hm; omega
        · omega
        · exact hm
      obtain ⟨v', l', r', hs⟩ := ih1 hbrr hmrr
      simp only [if_pos hA, hs, rotateLeft, Tree.right, Tree.isNil]
      exact ⟨_, _, _, rfl⟩
    · by_cases hB : key < rk
      · have hmrl : key ∈ treeKeys rl := by
          rcases hm with hm | rfl | hm | rfl | hm
          · have := h1 key hm; omega
          · omega
          · exact hm
          · omega
          · have := h4 key hm; omega
        obtain ⟨v', l', r', hs⟩ := ih2 hbrl hmrl
        simp only [if_neg hA, if_pos hB, hs, rotateRight, rotateLeft, Tree.right, Tree.isNil]
        exact ⟨_, _, _, rfl⟩
      · have hkey : rk = key := by omega
        subst hkey
        simp only [if_neg hA, if_neg hB, rotateLeft, Tree.right, Tree.isNil]
        exact ⟨_, _, _, rfl⟩


theorem splay_bounds (t : Tree) (key : Int) :
    BST t → ∀ k' v' l' r', splay t key = Tree.node k' v' l' r' →
      (key < k' → ∀ x ∈ treeKeys l', x < key) ∧
      (k' < key → ∀ x ∈ treeKeys r', key < x) := by
  induction t, key using splay.induct with
  | case1 key =>
    intro _ k' v' l' r' heq
    rw [splay.eq_def] at heq
    exact (Tree.noConfusion heq)
  | case2 key v l r =>
    intro hb k' v' l' r' heq
    rw [splay.eq_def] at heq
    simp only [if_pos rfl] at heq
    obtain ⟨rfl, rfl, rfl, rfl⟩ := Tree.node.inj heq
    exact ⟨fun h => (lt_irrefl _ h).elim, fun h => (lt_irrefl _ h).elim⟩
  | case3 key k v r hne hlt =>
    intro hb k' v' l' r' heq
    simp only [BST] at hb
    obtain ⟨h1, h2, hbl, hbr⟩ := hb
    rw [splay.eq_def] at heq
    simp only [if_neg hne, if_pos hlt] at heq
    obtain ⟨rfl, rfl, rfl, rfl⟩ := Tree.node.inj heq
    refine ⟨fun _ x hx => ?_, fun hk => ((by omega : False)).elim⟩
    simp at hx
  | case4 key k v r hne hlt lk lv ll lr root hroot ih1 ih2 =>
    clear hroot
    intro hb k' v' l' r' heq
    simp only [BST] at hb
    obtain ⟨h1, h2, ⟨h3, h4, hbll, hblr⟩, hbr⟩ := hb
    simp only [treeKeys_node, List.mem_append, List.mem_cons] at h1
    rw [splay.eq_def] at heq
    simp only [if_neg hne, if_pos hlt] at heq
    by_cases hA : key < lk
    · simp only [if_pos hA] at heq
      cases hs : splay ll key with
      | nil =>
        rw [hs] at heq
        simp only [rotateRight, Tree.left, Tree.isNil, if_true] at heq
        obtain ⟨rfl, rfl, rfl, rfl⟩ := Tree.node.inj heq
        refine ⟨fun _ x hx => ?_, fun hk => ((by omega : False)).elim⟩
        simp at hx
      | node a b c d =>
        have hbnd := ih1 hbll a b c d hs
        rw [hs] at heq
        simp only [rotateRight, Tree.left, Tree.isNil, Bool.false_eq_true, if_false] at heq
        obtain ⟨rfl, rfl, rfl, rfl⟩ := Tree.node.inj heq
        refine ⟨fun h => hbnd.1 h, fun ha x hx => ?_⟩
        simp only [treeKeys_node, List.mem_append, List.mem_cons] at hx
        rcases hx with hx | rfl | hx | rfl | hx
        · exact hbnd.2 ha x hx
        · omega
        · have := h4 x hx; omega
        · omega
        · have := h2 x hx; omega
    · by_cases hB : lk < key
      · simp only [if_neg hA, if_pos hB] at heq
        cases hs : splay lr key with
        | nil =>
          rw [hs] at heq
          simp only [Tree.isNil, if_true, rotateRight, Tree.left, Bool.false_eq_true,
            if_false] at heq
          obtain ⟨rfl, rfl, rfl, rfl⟩ := Tree.node.inj heq
          refine ⟨fun h => ((by omega : False)).elim, fun _ x hx => ?_⟩
          simp only [treeKeys_node, treeKeys_nil, List.mem_append, List.mem_cons,
            List.not_mem_nil, false_or, List.nil_append] at hx
          rcases hx with rfl | hx
          · omega
          · have := h2 x hx; omega
        | node a b c d =>
          have hbnd := ih2 hblr a b c d hs
          rw [hs] at heq
          simp only [Tree.isNil, Bool.false_eq_true, if_false, rotateLeft, rotateRight,
            Tree.left] at heq
          obtain ⟨rfl, rfl, rfl, rfl⟩ := Tree.node.inj heq
          refine ⟨fun h x hx => ?_, fun ha x hx => ?_⟩
          · simp only [treeKeys_node, List.mem_append, List.mem_cons] at hx
            rcases hx with hx | rfl | hx
            · have := h3 x hx; omega
            · omega
            · exact hbnd.1 h x hx
          · simp only [treeKeys_node, List.mem_append, List.mem_cons] at hx
            rcases hx with hx | rfl | hx
            · exact hbnd.2 ha x hx
            · omega
            · have := h2 x hx; omega
      · have hkeq : lk = key := by omega
        subst hkeq
        simp only [if_neg hA, if_neg hB, rotateRight, Tree.left, Tree.isNil,
          Bool.false_eq_true, if_false] at heq
        obtain ⟨rfl, rfl, rfl, rfl⟩ := Tree.node.inj heq
        exact ⟨fun h => (lt_irrefl _ h).elim, fun h => (lt_irrefl _ h).elim⟩
  | case5 key k v r hne hlt lk lv ll lr root hroot ih1 ih2 =>
    clear hroot
    intro hb k' v' l' r' heq
    simp only [BST] at hb
    obtain ⟨h1, h2, ⟨h3, h4, hbll, hblr⟩, hbr⟩ := hb
    simp only [treeKeys_node, List.mem_append, List.mem_cons] at h1
    rw [splay.eq_def] at heq
    simp only [if_neg hne, if_pos hlt] at heq
    by_cases hA : key < lk
    · simp only [if_pos hA] at heq
      cases hs : splay ll key with
      | nil =>
        rw [hs] at heq
        simp only [rotateRight, Tree.left, Tree.isNil, if_true] at heq
        obtain ⟨rfl, rfl, rfl, rfl⟩ := Tree.node.inj heq
        refine ⟨fun _ x hx => ?_, fun hk => ((by omega : False)).elim⟩
        simp at hx
      | node a b c d =>
        have hbnd := ih1 hbll a b c d hs
        rw [hs] at heq
        simp only [rotateRight, Tree.left, Tree.isNil, Bool.false_eq_true, if_false] at heq
        obtain ⟨rfl, rfl, rfl, rfl⟩ := Tree.node.inj heq
        refine ⟨fun h => hbnd.1 h, fun ha x hx => ?_⟩
        simp only [treeKeys_node, List.mem_append, List.mem_cons] at hx
        rcases hx with hx | rfl | hx | rfl | hx
        · exact hbnd.2 ha x hx
        · omega
        · have := h4 x hx; omega
        · omega
        · have := h2 x hx; omega
    · by_cases hB : lk < key
      · simp only [if_neg hA, if_pos hB] at heq
        cases hs : splay lr key with
        | nil =>
          rw [hs] at heq
          simp only [Tree.isNil, if_true, rotateRight, Tree.left, Bool.false_eq_true,
            if_false] at heq
          obtain ⟨rfl, rfl, rfl, rfl⟩ := Tree.node.inj heq
          refine ⟨fun h => ((by omega : False)).elim, fun _ x hx => ?_⟩
          simp only [treeKeys_node, treeKeys_nil, List.mem_append, List.mem_cons,
            List.not_mem_nil, false_or, List.nil_append] at hx
          rcases hx with rfl | hx
          · omega
          · have := h2 x hx; omega
        | node a b c d =>
          have hbnd := ih2 hblr a b c d hs
          rw [hs] at heq
          simp only [Tree.isNil, Bool.false_eq_true, if_false, rotateLeft, rotateRight,
            Tree.left] at heq
          obtain ⟨rfl, rfl, rfl, rfl⟩ := Tree.node.inj heq
          refine ⟨fun h x hx => ?_, fun ha x hx => ?_⟩
          · simp only [treeKeys_node, List.mem_append, List.mem_cons] at hx
            rcases hx with hx | rfl | hx
            · have := h3 x hx; omega
            · omega
            · exact hbnd.1 h x hx
          · simp only [treeKeys_node, List.mem_append, List.mem_cons] at hx
            rcases hx with hx | rfl | hx
            · exact hbnd.2 ha x hx
            · omega
            · have := h2 x hx; omega
      · have hkeq : lk = key := by omega
        subst hkeq
        simp only [if_neg hA, if_neg hB, rotateRight, Tree.left, Tree.isNil,
          Bool.false_eq_true, if_false] at heq
        obtain ⟨rfl, rfl, rfl, rfl⟩ := Tree.node.inj heq
        exact ⟨fun h => (lt_irrefl _ h).elim, fun h => (lt_irrefl _ h).elim⟩
  | case6 key k v l hne hge =>
    intro hb k' v' l' r' heq
    simp only [BST] at hb
    obtain ⟨h1, h2, hbl, hbr⟩ := hb
    rw [splay.eq_def] at heq
    simp only [if_neg hne, if_neg hge] at heq
    obtain ⟨rfl, rfl, rfl, rfl⟩ := Tree.node.inj heq
    refine ⟨fun hk => ((by omega : False)).elim, fun _ x hx => ?_⟩
    simp at hx
  | case7 key k v l hne hge rk rv rl rr root hroot ih1 ih2 =>
    clear hroot
    intro hb k' v' l' r' heq
    simp only [BST] at hb
    obtain ⟨h1, h2, hbl, ⟨h3, h4, hbrl, hbrr⟩⟩ := hb
    simp only [treeKeys_node, List.mem_append, List.mem_cons] at h2
    rw [splay.eq_def] at heq
    simp only [if_neg hne, if_neg hge] at heq
    by_cases hA : rk < key
    · simp only [if_pos hA] at heq
      cases hs : splay rr key with
      | nil =>
        rw [hs] at heq
        simp only [rotateLeft, Tree.right, Tree.isNil, if_true] at heq
        obtain ⟨rfl, rfl, rfl, rfl⟩ := Tree.node.inj heq
        refine ⟨fun h x hx => ?_, fun hk x hx => ?_⟩
        · simp only [treeKeys_node, List.mem_append, List.mem_cons] at hx
          rcases hx with hx | rfl | hx
          · have := h1 x hx; omega
          · omega
          · have := h3 x hx; omega
        · simp at hx
      | node a b c d =>
        have hbnd := ih1 hbrr a b c d hs
        rw [hs] at heq
        simp only [rotateLeft, Tree.right, Tree.isNil, Bool.false_eq_true, if_false] at heq
        obtain ⟨rfl, rfl, rfl, rfl⟩ := Tree.node.inj heq
        refine ⟨fun h x hx => ?_, fun ha => hbnd.2 ha⟩
        simp only [treeKeys_node, List.mem_append, List.mem_cons] at hx
        rcases hx with (hx | rfl | hx) | rfl | hx
        · have := h1 x hx; omega
        · omega
        · have := h3 x hx; omega
        · omega
        · exact hbnd.1 h x hx
    · by_cases hB : key < rk
      · simp only [if_neg hA, if_pos hB] at heq
        cases hs : splay rl key with
        | nil =>
          rw [hs] at heq
          simp only [Tree.isNil, if_true, rotateLeft, Tree.right, Bool.false_eq_true,
            if_false] at heq
          obtain ⟨rfl, rfl, rfl, rfl⟩ := Tree.node.inj heq
          refine ⟨fun h x hx => ?_, fun hk => ((by omega : False)).elim⟩
          simp only [treeKeys_node, treeKeys_nil, List.mem_append, List.mem_cons,
            List.not_mem_nil, or_false, List.nil_append] at hx
          rcases hx with hx | rfl
          · have := h1 x hx; omega
          · omega
        | node a b c d =>
          have hbnd := ih2 hbrl a b c d hs
          rw [hs] at heq
          simp only [Tree.isNil, Bool.false_eq_true, if_false, rotateRight, rotateLeft,
            Tree.right] at heq
          obtain ⟨rfl, rfl, rfl, rfl⟩ := Tree.node.inj heq
          refine ⟨fun h x hx => ?_, fun ha x hx => ?_⟩
          · simp only [treeKeys_node, List.mem_append, List.mem_cons] at hx
            rcases hx with hx | rfl | hx
            · have := h1 x hx; omega
            · omega
            · exact hbnd.1 h x hx
          · simp only [treeKeys_node, List.mem_append, List.mem_cons] at hx
            rcases hx with hx | rfl | hx
            · exact hbnd.2 ha x hx
            · omega
            · have := h4 x hx; omega
      · have hkeq : rk = key := by omega
        subst hkeq
        simp only [if_neg hA, if_neg hB, rotateLeft, Tree.right, Tree.isNil,
          Bool.false_eq_true, if_false] at heq
        obtain ⟨rfl, rfl, rfl, rfl⟩ := Tree.node.inj heq
        exact ⟨fun h => (lt_irrefl _ h).elim, fun h => (lt_irrefl _ h).elim⟩
  | case8 key k v l hne hge rk rv rl rr root hroot ih1 ih2 =>
    clear hroot
    intro hb k' v' l' r' heq
    simp only [BST] at hb
    obtain ⟨h1, h2, hbl, ⟨h3, h4, hbrl, hbrr⟩⟩ := hb
    simp only [treeKeys_node, List.mem_append, List.mem_cons] at h2
    rw [splay.eq_def] at heq
    simp only [if_neg hne, if_neg hge] at heq
    by_cases hA : rk < key
    · simp only [if_pos hA] at heq
      cases hs : splay rr key with
      | nil =>
        rw [hs] at heq
        simp only [rotateLeft, Tree.right, Tree.isNil, if_true] at heq
        obtain ⟨rfl, rfl, rfl, rfl⟩ := Tree.node.inj heq
        refine ⟨fun h x hx => ?_, fun hk x hx => ?_⟩
        · simp only [treeKeys_node, List.mem_append, List.mem_cons] at hx
          rcases hx with hx | rfl | hx
          · have := h1 x hx; omega
          · omega
          · have := h3 x hx; omega
        · simp at hx
      | node a b c d =>
        have hbnd := ih1 hbrr a b c d hs
        rw [hs] at heq
        simp only [rotateLeft, Tree.right, Tree.isNil, Bool.false_eq_true, if_false] at heq
        obtain ⟨rfl, rfl, rfl, rfl⟩ := Tree.node.inj heq
        refine ⟨fun h x hx => ?_, fun ha => hbnd.2 ha⟩
        simp only [treeKeys_node, List.mem_append, List.mem_cons] at hx
        rcases hx with (hx | rfl | hx) | rfl | hx
        · have := h1 x hx; omega
        · omega
        · have := h3 x hx; omega
        · omega
        · exact hbnd.1 h x hx
    · by_cases hB : key < rk
      · simp only [if_neg hA, if_pos hB] at heq
        cases hs : splay rl key with
        | nil =>
          rw [hs] at heq
          simp only [Tree.isNil, if_true, rotateLeft, Tree.right, Bool.false_eq_true,
            if_false] at heq
          obtain ⟨rfl, rfl, rfl, rfl⟩ := Tree.node.inj heq
          refine ⟨fun h x hx => ?_, fun hk => ((by omega : False)).elim⟩
          simp only [treeKeys_node, treeKeys_nil, List.mem_append, List.mem_cons,
            List.not_mem_nil, or_false, List.nil_append] at hx
          rcases hx with hx | rfl
          · have := h1 x hx; omega
          · omega
        | node a b c d =>
          have hbnd := ih2 hbrl a b c d hs
          rw [hs] at heq
          simp only [Tree.isNil, Bool.false_eq_true, if_false, rotateRight, rotateLeft,
            Tree.right] at heq
          obtain ⟨rfl, rfl, rfl, rfl⟩ := Tree.node.inj heq
          refine ⟨fun h x hx => ?_, fun ha x hx => ?_⟩
          · simp only [treeKeys_node, List.mem_append, List.mem_cons] at hx
            rcases hx with hx | rfl | hx
            · have := h1 x hx; omega
            · omega
            · exact hbnd.1 h x hx
          · simp only [treeKeys_node, List.mem_append, List.mem_cons] at hx
            rcases hx with hx | rfl | hx
            · exact hbnd.2 ha x hx
            · omega
            · have := h4 x hx; omega
      · have hkeq : rk = key := by omega
        subst hkeq
        simp only [if_neg hA, if_neg hB, rotateLeft, Tree.right, Tree.isNil,
          Bool.false_eq_true, if_false] at heq
        obtain ⟨rfl, rfl, rfl, rfl⟩ := Tree.node.inj heq
        exact ⟨fun h => (lt_irrefl _ h).elim, fun h => (lt_irrefl _ h).elim⟩


theorem splay_self (key v : Int) (l r : Tree) :
    splay (Tree.node key v l r) key = Tree.node key v l r := by
  rw [splay.eq_def]; simp

theorem search_inorder (t : Tree) (key : Int) :
    (search t key).2.inorder = t.inorder := by
  have h := splay_inorder t key
  unfold search
  rcases hs : splay t key with _ | ⟨k, w, l, r⟩ <;> rw [hs] at h
  · simpa using h
  · by_cases h1 : k = key
    · simp only [if_pos h1]; exact h
    · simp only [if_neg h1]; exact h

theorem search_treeKeys (t : Tree) (key : Int) :
    treeKeys (search t key).2 = treeKeys t := by
  simp [treeKeys, search_inorder]

theorem search_bst (t : Tree) (key : Int) (hb : BST t) : BST (search t key).2 := by
  rw [bst_iff_pairwise, search_treeKeys]
  exact (bst_iff_pairwise t).mp hb

theorem search_fst_mem (t : Tree) (key v : Int) (h : (search t key).1 = some v) :
    (key, v) ∈ t.inorder := by
  have hi := splay_inorder t key
  unfold search at h
  rcases hs : splay t key with _ | ⟨k, w, l, r⟩ <;> rw [hs] at h hi
  · simp at h
  · by_cases h1 : k = key
    · simp only [if_pos h1] at h
      obtain rfl : w = v := by simpa using h
      subst h1
      rw [← hi]
      simp [Tree.inorder]
    · simp only [if_neg h1] at h
      simp at h

theorem search_eq_of_splay (t : Tree) (key v : Int) (l r : Tree)
    (hs : splay t key = Tree.node key v l r) :
    search t key = (some v, Tree.node key v l r) := by
  unfold search
  rw [hs]
  simp

theorem search_some_of_mem (t : Tree) (key : Int) (hb : BST t)
    (hm : key ∈ treeKeys t) :
    ∃ v, (search t key).1 = some v ∧ (search t key).2.rootKey = some key := by
  obtain ⟨v, l, r, hs⟩ := splay_root_of_mem t key hb hm
  rw [search_eq_of_splay t key v l r hs]
  exact ⟨v, rfl, rfl⟩

theorem splay_rootKey_mem (t : Tree) (key k' : Int)
    (h : (splay t key).rootKey = some k') : k' ∈ treeKeys t := by
  rcases hs : splay t key with _ | ⟨k, w, l, r⟩ <;> rw [hs] at h
  · simp [Tree.rootKey] at h
  · obtain rfl : k = k' := by simpa [Tree.rootKey] using h
    have hk := splay_treeKeys t key
    rw [hs] at hk
    rw [← hk]
    simp

theorem search_none_of_not_mem (t : Tree) (key : Int)
    (hm : key ∉ treeKeys t) : (search t key).1 = none := by
  unfold search
  rcases hs : splay t key with _ | ⟨k, w, l, r⟩
  · rfl
  · have hk : k ∈ treeKeys t := by
      have h := splay_treeKeys t key
      rw [hs] at h
      rw [← h]; simp
    by_cases h1 : k = key
    · exact absurd (h1 ▸ hk) hm
    · simp [if_neg h1]

theorem insert_shape (t : Tree) (key v : Int) :
    ∃ L R, insert t key v = Tree.node key v L R := by
  unfold insert
  rcases hs : splay t key with _ | ⟨k, w, l, r⟩
  · exact ⟨.nil, .nil, rfl⟩
  · by_cases h1 : k = key
    · subst h1
      simp only [if_pos rfl]
      exact ⟨l, r, rfl⟩
    · by_cases h2 : key < k
      · simp only [if_neg h1, if_pos h2]
        exact ⟨l, .node k w .nil r, rfl⟩
      · simp only [if_neg h1, if_neg h2]
        exact ⟨.node k w l .nil, r, rfl⟩

theorem insert_hit (key w v : Int) (l r : Tree) :
    insert (Tree.node key w l r) key v = Tree.node key v l r := by
  unfold insert
  rw [splay_self]
  simp

theorem search_root_hit (key v : Int) (l r : Tree) :
    search (Tree.node key v l r) key = (some v, Tree.node key v l r) := by
  unfold search
  rw [splay_self]
  simp

theorem insert_pairs (t : Tree) (key v : Int) :
    ∀ p ∈ (insert t key v).inorder, p ∈ t.inorder ∨ p = (key, v) := by
  have h := splay_inorder t key
  unfold insert
  rcases hs : splay t key with _ | ⟨k, w, l, r⟩ <;> rw [hs] at h
  · intro p hp
    simp only [Tree.inorder, List.nil_append, List.mem_cons, List.not_mem_nil,
      or_false] at hp
    exact Or.inr hp
  · by_cases h1 : k = key
    · subst h1
      simp only [if_pos rfl]
      intro p hp
      rw [← h]
      simp only [Tree.inorder, List.mem_append, List.mem_cons] at hp ⊢
      tauto
    · by_cases h2 : key < k
      · simp only [if_neg h1, if_pos h2]
        intro p hp
        rw [← h]
        simp only [Tree.inorder, List.nil_append, List.mem_append, List.mem_cons] at hp ⊢
        tauto
      · simp only [if_neg h1, if_neg h2]
        intro p hp
        rw [← h]
        simp only [Tree.inorder, List.append_nil, List.mem_append, List.mem_cons] at hp ⊢
        tauto

theorem treeKeys_insert (t : Tree) (key v : Int) :
    key ∈ treeKeys (insert t key v) ∧
      ∀ x ∈ treeKeys t, x ∈ treeKeys (insert t key v) := by
  have h := splay_treeKeys t key
  unfold insert
  rcases hs : splay t key with _ | ⟨k, w, l, r⟩ <;> rw [hs] at h
  · constructor
    · simp
    · rw [← h]; simp
  · by_cases h1 : k = key
    · subst h1
      simp only [if_pos rfl]
      rw [← h]
      simp
    · by_cases h2 : key < k
      · simp only [if_neg h1, if_pos h2]
        rw [← h]
        constructor
        · simp
        · intro x hx
          simp only [treeKeys_node, treeKeys_nil, List.nil_append, List.mem_append,
            List.mem_cons] at hx ⊢
          tauto
      · simp only [if_neg h1, if_neg h2]
        rw [← h]
        constructor
        · simp
        · intro x hx
          simp only [treeKeys_node, treeKeys_nil, List.append_nil, List.mem_append,
            List.mem_cons] at hx ⊢
          tauto

theorem insert_bst (t : Tree) (key v : Int) (hb : BST t) : BST (insert t key v) := by
  have hsb := splay_bst t key hb
  unfold insert
  rcases hs : splay t key with _ | ⟨k, w, l, r⟩ <;> rw [hs] at hsb
  · simp [BST]
  · have hbd := splay_bounds t key hb k w l r hs
    simp only [BST] at hsb
    obtain ⟨hl, hr, hbl, hbr⟩ := hsb
    by_cases h1 : k = key
    · subst h1
      simp only [if_pos rfl, BST]
      exact ⟨hl, hr, hbl, hbr⟩
    · by_cases h2 : key < k
      · simp only [if_neg h1, if_pos h2, BST, treeKeys_node, treeKeys_nil,
          List.nil_append, List.mem_cons]
        refine ⟨hbd.1 h2, ?_, hbl, ?_, hr, trivial, hbr⟩
        · rintro x (rfl | hx)
          · exact h2
          · exact lt_trans h2 (hr x hx)
        · simp
      · have h2' : k < key := by omega
        simp only [if_neg h1, if_neg h2, BST, treeKeys_node, treeKeys_nil,
          List.append_nil, List.mem_append, List.mem_cons]
        refine ⟨?_, hbd.2 h2', ⟨hl, ?_, hbl, trivial⟩, hbr⟩
        · rintro x (hx | rfl | hx)
          · exact lt_trans (hl x hx) h2'
          · exact h2'
          · simp at hx
        · simp


theorem fibIterAux_eq (n : Nat) : fibIterAux n = (fib n, fib (n + 1)) := by
  induction n with
  | zero => rfl
  | succ m ih =>
    simp only [fibIterAux, ih, fib]
    exact Prod.ext rfl (Nat.add_comm _ _)

theorem fibIter_eq_fib (n : Nat) : fibIter n = fib n := by
  simp [fibIter, fibIterAux_eq]

theorem search_fst_some_mem (t : Tree) (key v : Int)
    (h : (search t key).1 = some v) : key ∈ treeKeys (search t key).2 := by
  rw [search_treeKeys]
  have := search_fst_mem t key v h
  simp only [treeKeys, List.mem_map]
  exact ⟨(key, v), this, rfl⟩

theorem fibStep_bst (t : Tree) (k : Nat) (hb : BST t) : BST (fibStep t k) := by
  unfold fibStep
  rcases hq : search t (k : Int) with ⟨a, t1⟩
  have hb1 : BST t1 := by
    have := search_bst t (k : Int) hb
    rw [hq] at this
    exact this
  cases a with
  | some v => exact hb1
  | none =>
    by_cases h2 : k < 2
    · simp only [if_pos h2]
      exact insert_bst t1 _ _ hb1
    · simp only [if_neg h2]
      rcases hq1 : search t1 ((k : Int) - 1) with ⟨a, t2⟩
      have hb2 : BST t2 := by
        have := search_bst t1 ((k : Int) - 1) hb1
        rw [hq1] at this
        exact this
      rcases hq2 : search t2 ((k : Int) - 2) with ⟨b, t3⟩
      have hb3 : BST t3 := by
        have := search_bst t2 ((k : Int) - 2) hb2
        rw [hq2] at this
        exact this
      exact insert_bst t3 _ _ hb3

theorem search_keys_mem (t : Tree) (key x : Int) (hx : x ∈ treeKeys t) :
    x ∈ treeKeys (search t key).2 := by
  rw [search_treeKeys]; exact hx

theorem fibStep_keys (t : Tree) (k : Nat) (x : Int) (hx : x ∈ treeKeys t) :
    x ∈ treeKeys (fibStep t k) := by
  unfold fibStep
  rcases hq : search t (k : Int) with ⟨a, t1⟩
  have hx1 : x ∈ treeKeys t1 := by
    have := search_keys_mem t (k : Int) x hx
    rw [hq] at this
    exact this
  cases a with
  | some v => exact hx1
  | none =>
    by_cases h2 : k < 2
    · simp only [if_pos h2]
      exact (treeKeys_insert t1 _ _).2 x hx1
    · simp only [if_neg h2]
      rcases hq1 : search t1 ((k : Int) - 1) with ⟨a, t2⟩
      have hx2 : x ∈ treeKeys t2 := by
        have := search_keys_mem t1 ((k : Int) - 1) x hx1
        rw [hq1] at this
        exact this
      rcases hq2 : search t2 ((k : Int) - 2) with ⟨b, t3⟩
      have hx3 : x ∈ treeKeys t3 := by
        have := search_keys_mem t2 ((k : Int) - 2) x hx2
        rw [hq2] at this
        exact this
      exact (treeKeys_insert t3 _ _).2 x hx3

theorem fibStep_mem_self (t : Tree) (k : Nat) :
    (k : Int) ∈ treeKeys (fibStep t k) := by
  unfold fibStep
  rcases hq : search t (k : Int) with ⟨a, t1⟩
  cases a with
  | some v =>
    have := search_fst_some_mem t (k : Int) v (by rw [hq])
    rw [hq] at this
    exact this
  | none =>
    by_cases h2 : k < 2
    · simp only [if_pos h2]
      exact (treeKeys_insert t1 _ _).1
    · simp only [if_neg h2]
      rcases hq1 : search t1 ((k : Int) - 1) with ⟨a, t2⟩
      rcases hq2 : search t2 ((k : Int) - 2) with ⟨b, t3⟩
      exact (treeKeys_insert t3 _ _).1

theorem fibStep_hasBelow (t : Tree) (k : Nat) (hk : hasBelow t k) :
    hasBelow (fibStep t k) (k + 1) := by
  intro j hj
  by_cases hjk : j < k
  · exact fibStep_keys t k _ (hk j hjk)
  · have : j = k := by omega
    subst this
    exact fibStep_mem_self t j


theorem fibStep_good (t : Tree) (k : Nat) (hb : BST t) (hg : goodPairs t)
    (hk : hasBelow t k) : goodPairs (fibStep t k) := by
  unfold fibStep
  rcases hq : search t (k : Int) with ⟨a, t1⟩
  have hb1 : BST t1 := by
    have := search_bst t (k : Int) hb; rw [hq] at this; exact this
  have hi1 : t1.inorder = t.inorder := by
    have := search_inorder t (k : Int); rw [hq] at this; exact this
  have hkeys1 : treeKeys t1 = treeKeys t := by
    have := search_treeKeys t (k : Int); rw [hq] at this; exact this
  have hg1 : goodPairs t1 := fun p hp => hg p (hi1 ▸ hp)
  cases a with
  | some v => exact hg1
  | none =>
    by_cases h2 : k < 2
    · simp only [if_pos h2]
      intro p hp
      rcases insert_pairs t1 (k : Int) (k : Int) p hp with hp' | rfl
      · exact hg1 p hp'
      · refine ⟨k, rfl, ?_⟩
        interval_cases k <;> rfl
    · simp only [if_neg h2]
      have hbm1 : ((k : Int) - 1) ∈ treeKeys t1 := by
        have h1 := hk (k - 1) (by omega)
        have hc : ((k - 1 : Nat) : Int) = (k : Int) - 1 := by omega
        rw [← hc, hkeys1]
        exact h1
      obtain ⟨a1, ha1, -⟩ := search_some_of_mem t1 ((k : Int) - 1) hb1 hbm1
      have hpa : ((k : Int) - 1, a1) ∈ t1.inorder := search_fst_mem _ _ _ ha1
      obtain ⟨j1, hj1, hv1⟩ := hg1 _ hpa
      have hj1' : j1 = k - 1 := by simp only at hj1; omega
      subst hj1'
      rcases hq1 : search t1 ((k : Int) - 1) with ⟨a, t2⟩
      rw [hq1] at ha1
      simp only at ha1
      subst ha1
      have hb2 : BST t2 := by
        have := search_bst t1 ((k : Int) - 1) hb1; rw [hq1] at this; exact this
      have hi2 : t2.inorder = t1.inorder := by
        have := search_inorder t1 ((k : Int) - 1); rw [hq1] at this; exact this
      have hkeys2 : treeKeys t2 = treeKeys t1 := by
        have := search_treeKeys t1 ((k : Int) - 1); rw [hq1] at this; exact this
      have hg2 : goodPairs t2 := fun p hp => hg1 p (hi2 ▸ hp)
      have hbm2 : ((k : Int) - 2) ∈ treeKeys t2 := by
        have h1 := hk (k - 2) (by omega)
        have hc : ((k - 2 : Nat) : Int) = (k : Int) - 2 := by omega
        rw [← hc, hkeys2, hkeys1]
        exact h1
      obtain ⟨b1, hb1', -⟩ := search_some_of_mem t2 ((k : Int) - 2) hb2 hbm2
      have hpb : ((k : Int) - 2, b1) ∈ t2.inorder := search_fst_mem _ _ _ hb1'
      obtain ⟨j2, hj2, hv2⟩ := hg2 _ hpb
      have hj2' : j2 = k - 2 := by simp only at hj2; omega
      subst hj2'
      rcases hq2 : search t2 ((k : Int) - 2) with ⟨b, t3⟩
      rw [hq2] at hb1'
      simp only at hb1'
      subst hb1'
      have hi3 : t3.inorder = t2.inorder := by
        have := search_inorder t2 ((k : Int) - 2); rw [hq2] at this; exact this
      have hg3 : goodPairs t3 := fun p hp => hg2 p (hi3 ▸ hp)
      intro p hp
      rcases insert_pairs t3 (k : Int) _ p hp with hp' | rfl
      · exact hg3 p hp'
      · refine ⟨k, rfl, ?_⟩
        simp only at hv1 hv2
        obtain ⟨m, rfl⟩ : ∃ m, k = m + 2 := ⟨k - 2, by omega⟩
        simp only [Option.getD_some, hv1, hv2]
        have e1 : m + 2 - 1 = m + 1 := by omega
        have e2 : m + 2 - 2 = m := by omega
        rw [e1, e2]
        have : fib (m + 2) = fib (m + 1) + fib m := rfl
        rw [this]
        push_cast
        ring

theorem goodPairs_nil : goodPairs Tree.nil := by
  intro p hp
  simp [Tree.inorder] at hp

theorem fill_inv (n : Nat) (t : Tree) (hb : BST t) (hg : goodPairs t) :
    BST ((List.range n).foldl fibStep t) ∧
      goodPairs ((List.range n).foldl fibStep t) ∧
      hasBelow ((List.range n).foldl fibStep t) n := by
  induction n with
  | zero => exact ⟨hb, hg, fun j hj => absurd hj (by omega)⟩
  | succ m ih =>
    obtain ⟨hb', hg', hk'⟩ := ih
    rw [List.range_succ, List.foldl_append]
    simp only [List.foldl_cons, List.foldl_nil]
    exact ⟨fibStep_bst _ _ hb', fibStep_good _ _ hb' hg' hk', fibStep_hasBelow _ _ hk'⟩

theorem fill_basic (n : Nat) (t : Tree) (hb : BST t) :
    BST ((List.range n).foldl fibStep t) ∧
      hasBelow ((List.range n).foldl fibStep t) n := by
  induction n with
  | zero => exact ⟨hb, fun j hj => absurd hj (by omega)⟩
  | succ m ih =>
    obtain ⟨hb', hk'⟩ := ih
    rw [List.range_succ, List.foldl_append]
    simp only [List.foldl_cons, List.foldl_nil]
    exact ⟨fibStep_bst _ _ hb', fibStep_hasBelow _ _ hk'⟩


theorem splayFuel_eq (fuel : Nat) (t : Tree) (key : Int) (h : t.size < fuel) :
    splayFuel fuel t key = some (splay t key) := by
  induction fuel generalizing t with
  | zero => omega
  | succ f ih =>
    cases t with
    | nil => rw [splayFuel.eq_def, splay.eq_def]
    | node k v l r =>
      rw [splayFuel.eq_def, splay.eq_def]
      by_cases h0 : key = k
      · simp only [if_pos h0]
      · simp only [if_neg h0]
        by_cases hlt : key < k
        · simp only [if_pos hlt]
          cases l with
          | nil => rfl
          | node lk lv ll lr =>
            by_cases hA : key < lk
            · simp only [if_pos hA]
              rw [ih ll (by simp [Tree.size] at h ⊢; omega)]
              rfl
            · by_cases hB : lk < key
              · simp only [if_neg hA, if_pos hB]
                rw [ih lr (by simp [Tree.size] at h ⊢; omega)]
                rfl
              · simp only [if_neg hA, if_neg hB]
        · simp only [if_neg hlt]
          cases r with
          | nil => rfl
          | node rk rv rl rr =>
            by_cases hA : rk < key
            · simp only [if_pos hA]
              rw [ih rr (by simp [Tree.size] at h ⊢; omega)]
              rfl
            · by_cases hB : key < rk
              · simp only [if_neg hA, if_pos hB]
                rw [ih rl (by simp [Tree.size] at h ⊢; omega)]
                rfl
              · simp only [if_neg hA, if_neg hB]


theorem foldl_applyOp_bst (ops : List Op) (t : Tree) (hb : BST t) :
    BST (ops.foldl applyOp t) := by
  induction ops generalizing t with
  | nil => exact hb
  | cons op ops ih =>
    simp only [List.foldl_cons]
    apply ih
    cases op with
    | ins k v => exact insert_bst _ _ _ hb
    | find k => exact search_bst _ _ hb

/-- C1: after any sequence of `insert`/`search` calls starting from the empty
tree, the tree satisfies the BST invariant — all left-subtree keys strictly
below and all right-subtree keys strictly above each node's key — and no two
nodes with the same key coexist (the stored keys are pairwise distinct). -/
theorem claim1_bst_invariant (ops : List Op) :
    BST (runOps ops) ∧ (treeKeys (runOps ops)).Nodup := by
  have hb : BST (runOps ops) := foldl_applyOp_bst ops Tree.nil trivial
  exact ⟨hb, bst_nodup _ hb⟩

/-- C2: for every tree state and every key/value, `insert(k, v)` followed by
`search(k)` returns `v`. -/
theorem claim2_roundtrip (t : Tree) (key v : Int) :
    (search (insert t key v) key).1 = some v := by
  obtain ⟨L, R, h⟩ := insert_shape t key v
  rw [h, search_root_hit]

/-- C3: for every BST state and every key present in it, after `search(k)`
the root is non-null and its key is `k`. -/
theorem claim3_root_promotion (t : Tree) (key : Int) (hb : BST t)
    (hm : key ∈ treeKeys t) : (search t key).2.rootKey = some key := by
  obtain ⟨v, -, hr⟩ := search_some_of_mem t key hb hm
  exact hr

theorem claim3_root_promotion_witness :
    (BST (insert (insert Tree.nil 5 50) 3 30) ∧
      (5 : Int) ∈ treeKeys (insert (insert Tree.nil 5 50) 3 30)) ∧
    (search (insert (insert Tree.nil 5 50) 3 30) 5).2.rootKey = some 5 :=
  ⟨⟨by decide, by decide⟩, claim3_root_promotion _ 5 (by decide) (by decide)⟩

/-- C4: for `n ≤ 10000`, the value produced by the memoizing driver
`fibonacci_splay(n, tree)` on the freshly constructed tree equals the value
of the Fibonacci recurrence computed by the independent iterative reference,
exactly (keys and values are unbounded integers). -/
theorem claim4_fibonacci_correct (n : Nat) (hn : n ≤ 10000) :
    (fibonacci_splay n Tree.nil).1 = some ((fibIter n : Nat) : Int) := by
  have h0 : search Tree.nil (n : Int) = (none, Tree.nil) := rfl
  unfold fibonacci_splay
  rw [h0]
  obtain ⟨hb2, hg2, hk2⟩ := fill_inv (n + 1) Tree.nil trivial goodPairs_nil
  obtain ⟨v, hv, -⟩ :=
    search_some_of_mem _ (n : Int) hb2 (hk2 n (by omega))
  have hp := search_fst_mem _ _ _ hv
  obtain ⟨j, hj, hval⟩ := hg2 _ hp
  simp only at hj hval
  have hjn : j = n := by omega
  subst hjn
  rw [hv, hval, fibIter_eq_fib]

theorem claim4_fibonacci_correct_witness :
    10 ≤ 10000 ∧ (fibonacci_splay 10 Tree.nil).1 = some ((fibIter 10 : Nat) : Int) :=
  ⟨by decide, claim4_fibonacci_correct 10 (by decide)⟩

/-- C5 counterexample: on the reachable two-node tree `{10, 20}` (built by
`insert(20, 0); insert(10, 0)`), `search(14)` misses and promotes 20 to the
root, although 10 is the present key closest to 14 — so the miss does not in
general promote the numerically nearest neighbor. -/
theorem claim5_counterexample :
    (search (insert (insert Tree.nil 20 0) 10 0) 14).1 = none ∧
    (search (insert (insert Tree.nil 20 0) 10 0) 14).2.rootKey = some 20 ∧
    (10 : Int) ∈ treeKeys (insert (insert Tree.nil 20 0) 10 0) ∧
    |(14 : Int) - 10| < |(14 : Int) - 20| := by decide

/-- C5 (amended): for every non-empty BST and key `k` not present, `search(k)`
returns the miss indicator and promotes to the root an in-order neighbor of
`k`: a present key with no other present key strictly between it and `k`
(the nearest key on its side of `k`, though not necessarily the nearest of
the two sides). -/
theorem claim5_miss_promotes_neighbor (t : Tree) (key : Int) (hb : BST t)
    (hne : t ≠ Tree.nil) (hm : key ∉ treeKeys t) :
    (search t key).1 = none ∧
    ∃ k', (search t key).2.rootKey = some k' ∧ k' ∈ treeKeys t ∧
      ∀ x ∈ treeKeys t, ¬(k' < x ∧ x < key) ∧ ¬(key < x ∧ x < k') := by
  rcases hs : splay t key with _ | ⟨k', w, l, r⟩
  · exfalso
    have hi := splay_inorder t key
    rw [hs] at hi
    cases t with
    | nil => exact hne rfl
    | node a b c d => simp [Tree.inorder] at hi
  · have hk'mem : k' ∈ treeKeys t := splay_rootKey_mem t key k' (by rw [hs]; rfl)
    have hkne : k' ≠ key := fun h => hm (h ▸ hk'mem)
    have hsearch : search t key = (none, Tree.node k' w l r) := by
      unfold search
      rw [hs]
      simp [hkne]
    rw [hsearch]
    refine ⟨rfl, k', rfl, hk'mem, ?_⟩
    have hbd := splay_bounds t key hb k' w l r hs
    have hsb := splay_bst t key hb
    rw [hs] at hsb
    simp only [BST] at hsb
    obtain ⟨hl, hr, -, -⟩ := hsb
    have hkeys : treeKeys t = treeKeys l ++ k' :: treeKeys r := by
      have h := splay_treeKeys t key
      rw [hs] at h
      rw [← h]
      simp
    intro x hx
    rw [hkeys] at hx
    simp only [List.mem_append, List.mem_cons] at hx
    constructor
    · rintro ⟨hk1, hk2⟩
      rcases hx with hx | rfl | hx
      · have := hl x hx; omega
      · omega
      · have := hbd.2 (by omega) x hx; omega
    · rintro ⟨hk1, hk2⟩
      rcases hx with hx | rfl | hx
      · have := hbd.1 (by omega) x hx; omega
      · omega
      · have := hr x hx; omega

theorem claim5_miss_promotes_neighbor_witness :
    (BST (insert (insert Tree.nil 20 0) 10 0) ∧
      insert (insert Tree.nil 20 0) 10 0 ≠ Tree.nil ∧
      (14 : Int) ∉ treeKeys (insert (insert Tree.nil 20 0) 10 0)) ∧
    ((search (insert (insert Tree.nil 20 0) 10 0) 14).1 = none ∧
      ∃ k', (search (insert (insert Tree.nil 20 0) 10 0) 14).2.rootKey = some k' ∧
        k' ∈ treeKeys (insert (insert Tree.nil 20 0) 10 0) ∧
        ∀ x ∈ treeKeys (insert (insert Tree.nil 20 0) 10 0),
          ¬(k' < x ∧ x < 14) ∧ ¬((14 : Int) < x ∧ x < k')) :=
  ⟨⟨by decide, by decide, by decide⟩,
    claim5_miss_promotes_neighbor _ 14 (by decide) (by decide) (by decide)⟩

/-- C6: calling `insert(k, v1)` then `insert(k, v2)` then `search(k)` returns `v2`,
and the second insert leaves the node count unchanged (the value is updated
in place, no duplicate node is created). -/
theorem claim6_update_semantics (t : Tree) (k v1 v2 : Int) :
    (search (insert (insert t k v1) k v2) k).1 = some v2 ∧
    (insert (insert t k v1) k v2).size = (insert t k v1).size := by
  obtain ⟨L, R, h1⟩ := insert_shape t k v1
  rw [h1, insert_hit]
  constructor
  · rw [search_root_hit]
  · simp [Tree.size]

/-- C7: in the fill loop of the memoizing driver, for `2 ≤ k ≤ n`, when the
loop reaches index `k` (state: the loop-entry tree after steps `0..k-1`) and
`search(k)` misses, the subsequent lookups `search(k-1)` and `search(k-2)`
both hit — the defensive 0-fallback is unreachable. -/
theorem claim7_no_fallback (t : Tree) (n k : Nat) (hb : BST t)
    (h2 : 2 ≤ k) (hkn : k ≤ n) (t1 : Tree)
    (hmiss : search ((List.range k).foldl fibStep t) (k : Int) = (none, t1)) :
    (search t1 ((k : Int) - 1)).1.isSome ∧
    (search (search t1 ((k : Int) - 1)).2 ((k : Int) - 2)).1.isSome := by
  obtain ⟨hbk, hkk⟩ := fill_basic k t hb
  have hb1 : BST t1 := by
    have := search_bst ((List.range k).foldl fibStep t) (k : Int) hbk
    rw [hmiss] at this
    exact this
  have hkeys1 : treeKeys t1 = treeKeys ((List.range k).foldl fibStep t) := by
    have := search_treeKeys ((List.range k).foldl fibStep t) (k : Int)
    rw [hmiss] at this
    exact this
  have hm1 : ((k : Int) - 1) ∈ treeKeys t1 := by
    have h := hkk (k - 1) (by omega)
    have hc : ((k - 1 : Nat) : Int) = (k : Int) - 1 := by omega
    rw [hkeys1, ← hc]
    exact h
  obtain ⟨a1, ha1, -⟩ := search_some_of_mem t1 ((k : Int) - 1) hb1 hm1
  have hb2 : BST (search t1 ((k : Int) - 1)).2 := search_bst _ _ hb1
  have hm2 : ((k : Int) - 2) ∈ treeKeys (search t1 ((k : Int) - 1)).2 := by
    have h := hkk (k - 2) (by omega)
    have hc : ((k - 2 : Nat) : Int) = (k : Int) - 2 := by omega
    rw [search_treeKeys, hkeys1, ← hc]
    exact h
  obtain ⟨b1, hb1', -⟩ := search_some_of_mem _ ((k : Int) - 2) hb2 hm2
  rw [ha1, hb1']
  exact ⟨rfl, rfl⟩

theorem claim7_no_fallback_witness :
    (BST Tree.nil ∧ 2 ≤ 2 ∧ 2 ≤ 2 ∧
      search ((List.range 2).foldl fibStep Tree.nil) (2 : Int) =
        (none, Tree.node 1 1 (Tree.node 0 0 Tree.nil Tree.nil) Tree.nil)) ∧
    ((search (Tree.node 1 1 (Tree.node 0 0 Tree.nil Tree.nil) Tree.nil)
        ((2 : Int) - 1)).1.isSome ∧
      (search (search (Tree.node 1 1 (Tree.node 0 0 Tree.nil Tree.nil) Tree.nil)
        ((2 : Int) - 1)).2 ((2 : Int) - 2)).1.isSome) :=
  ⟨⟨by decide, by decide, by decide, by decide⟩,
    claim7_no_fallback Tree.nil 2 2 (by decide) (by decide) (by decide) _ (by decide)⟩

/-- C8: splaying a BST twice in a row on the same present key yields a tree
structurally identical to splaying once. -/
theorem claim8_splay_idempotent (t : Tree) (key : Int) (hb : BST t)
    (hm : key ∈ treeKeys t) : splay (splay t key) key = splay t key := by
  obtain ⟨v, l, r, hs⟩ := splay_root_of_mem t key hb hm
  rw [hs, splay_self]

theorem claim8_splay_idempotent_witness :
    (BST (insert (insert Tree.nil 5 50) 3 30) ∧
      (5 : Int) ∈ treeKeys (insert (insert Tree.nil 5 50) 3 30)) ∧
    splay (splay (insert (insert Tree.nil 5 50) 3 30) 5) 5 =
      splay (insert (insert Tree.nil 5 50) 3 30) 5 :=
  ⟨⟨by decide, by decide⟩, claim8_splay_idempotent _ 5 (by decide) (by decide)⟩

/-- C9: the operation `search` never changes the stored contents — the in-order listing of
`(key, value)` pairs (hence the set of nodes and their keys/values) is
exactly preserved; only the shape may change. -/
theorem claim9_search_frame (t : Tree) (key : Int) :
    (search t key).2.inorder = t.inorder :=
  search_inorder t key

/-- C10: the recursion of `_splay` terminates on every finite tree: running
it with fuel bounded by the node count (each recursive call descends two
levels, consuming one unit) never exhausts the fuel and computes exactly the
total function `splay`; `search` and `insert` call it on finite trees, so
they terminate as well. -/
theorem claim10_splay_terminates (t : Tree) (key : Int) :
    splayFuel (t.size + 1) t key = some (splay t key) :=
  splayFuel_eq (t.size + 1) t key (by omega)

end SplayTree
